import Mathlib

/-!
Verification of the tiling/reconstruction pipeline in `inference.py`.

The development shallowly embeds the Python source:
* `start_points` (the nested helper of `patchify`) is embedded with an
  explicit fuel argument, since the Python `while True` loop can diverge;
  `none` means the loop did not finish within the given fuel.
* numpy/torch arrays are embedded as `NDT`: a shape (list of dimension
  sizes) together with a total indexing function `List ℕ → ℚ`.
* `patchify`, `reconstruct` and the body of `_inference` after the input
  has been loaded are embedded as `patchify`, `reconstruct`,
  `preprocess`/`normalizeBatch`/`inferenceCore`.
* the path-input resolution at the top of `_inference` is embedded as
  `resolveInput`, with the outcomes of the two external load attempts
  (`np.load`, `PIL.Image.open`) passed in as `Option` parameters.

The float `overlap` argument is modelled as a rational number; for
`0 ≤ overlap ≤ 1` the Python `int(split_size * (1-overlap))` truncation
coincides with the rational floor used here.
-/

/-- Embedding of the loop of `start_points` (inference.py lines 26-34).
`counter` is the Python `counter` variable; `fuel` bounds the number of
iterations, `none` meaning the loop has not terminated within `fuel`
steps. Each iteration computes `pt = stride * counter`; if
`pt + split_size >= size` it appends `size - split_size` and stops,
otherwise it appends `pt` and continues. -/
def start_points_loop (size split_size stride : ℕ) : ℕ → ℕ → Option (List ℕ)
  | 0, _ => none
  | fuel + 1, counter =>
    if size ≤ stride * counter + split_size then
      some [size - split_size]
    else
      Option.map (fun l => stride * counter :: l)
        (start_points_loop size split_size stride fuel (counter + 1))

/-- Embedding of `stride = int(split_size * (1-overlap))`
(inference.py line 25). For `0 ≤ overlap ≤ 1` the value is nonnegative,
so Python's truncation toward zero is the floor. -/
def strideOf (split_size : ℕ) (overlap : ℚ) : ℕ :=
  (Int.toNat ⌊(split_size : ℚ) * (1 - overlap)⌋)

/-- Embedding of `start_points` (inference.py lines 23-35): the list
starts with `[0]` and is extended by the loop, with `counter` starting
at 1. -/
def start_points (size split_size : ℕ) (overlap : ℚ) (fuel : ℕ) :
    Option (List ℕ) :=
  Option.map (fun l => 0 :: l)
    (start_points_loop size split_size (strideOf split_size overlap) fuel 1)

/-- Shallow embedding of a numpy/torch array: a shape (list of dimension
sizes, outermost first) together with a total indexing function from an
index list to the stored rational value. Out-of-range indices are given
harmless default values; all claims only touch in-range indices. -/
structure NDT where
  shape : List ℕ
  data : List ℕ → ℚ

/-- Embedding of `tensor.permute(p)`: axis `a` of the result is axis
`p[a]` of the input. -/
def NDT.permute (t : NDT) (p : List ℕ) : NDT :=
  ⟨p.map (fun a => t.shape.getD a 0),
   fun idx => t.data ((List.range p.length).map (fun b => idx.getD (p.indexOf b) 0))⟩

/-- Embedding of `np.expand_dims(image, 0)` (inference.py line 105). -/
def NDT.expandDims0 (t : NDT) : NDT :=
  ⟨1 :: t.shape, fun idx => t.data idx.tail⟩

/-- Embedding of `tensor.squeeze(0)`: the leading axis is removed when
its size is `1`, otherwise the tensor is unchanged. -/
def NDT.squeeze0 (t : NDT) : NDT :=
  if t.shape.headD 0 = 1 then ⟨t.shape.tail, fun idx => t.data (0 :: idx)⟩
  else t

/-- Embedding of `torch.div(image, torch.Tensor([255.0]))`
(inference.py line 111): every entry is divided by 255. -/
def NDT.div255 (t : NDT) : NDT :=
  ⟨t.shape, fun idx => t.data idx / 255⟩

/-- The row-major traversal order `for i in Y_points: for j in X_points`
shared by `patchify` (lines 42-45) and `reconstruct` (lines 58-61). -/
def gridPairs (X_points Y_points : List ℕ) : List (ℕ × ℕ) :=
  Y_points.flatMap (fun i => X_points.map (fun j => (i, j)))

/-- Embedding of `patchify` (inference.py lines 22-50): grids are planned
over `image.shape[0]` (rows) and `image.shape[1]` (columns), then the
patches `image[i:i+split_size, j:j+split_size]` are stacked in row-major
order into an array of shape `[N, split_size, split_size, C]`. `none`
propagates a non-terminating `start_points` loop. -/
def patchify (image : NDT) (split_size : ℕ) (overlap : ℚ) (fuel : ℕ) :
    Option (NDT × List ℕ × List ℕ) :=
  match start_points (image.shape.getD 0 0) split_size overlap fuel,
        start_points (image.shape.getD 1 0) split_size overlap fuel with
  | some Y_points, some X_points =>
      some (⟨[(gridPairs X_points Y_points).length, split_size, split_size,
              image.shape.getD 2 0],
             fun idx =>
               image.data
                 [((gridPairs X_points Y_points).getD (idx.getD 0 0) (0, 0)).1
                    + idx.getD 1 0,
                  ((gridPairs X_points Y_points).getD (idx.getD 0 0) (0, 0)).2
                    + idx.getD 2 0,
                  idx.getD 3 0]⟩,
            X_points, Y_points)
  | _, _ => none

/-- Embedding of the write loop of `reconstruct` (inference.py lines
57-61): for each grid pair `(i, j)` in order, the slice
`result[i:i+split_size, j:j+split_size]` is overwritten with patch
number `count`; later writes win in overlap regions. -/
def reconstructLoop (splits : NDT) (split_size : ℕ) :
    List (ℕ × ℕ) → ℕ → (List ℕ → ℚ) → (List ℕ → ℚ)
  | [], _, canvas => canvas
  | (i, j) :: rest, count, canvas =>
      reconstructLoop splits split_size rest (count + 1)
        (fun idx =>
          if i ≤ idx.getD 0 0 ∧ idx.getD 0 0 < i + split_size ∧
             j ≤ idx.getD 1 0 ∧ idx.getD 1 0 < j + split_size then
            splits.data [count, idx.getD 0 0 - i, idx.getD 1 0 - j,
                         idx.getD 2 0]
          else canvas idx)

/-- Embedding of `reconstruct` (inference.py lines 53-62): a zero canvas
of shape `image_size` is filled by the write loop; the `overlap`
argument is accepted and unused, as in the source. -/
def reconstruct (splits : NDT) (split_size : ℕ) (overlap : ℚ)
    (image_size : List ℕ) (X_points Y_points : List ℕ) : NDT :=
  ⟨image_size,
   reconstructLoop splits split_size (gridPairs X_points Y_points) 0
     (fun _ => 0)⟩


/-- Embedding of the normalization step of `_inference` (inference.py
lines 107-111): `torch.from_numpy(image).permute(0, 3, 1, 2)` followed
by `torch.div(image, torch.Tensor([255.0]))`. This is the exact batch
handed to the network. -/
def normalizeBatch (batch : NDT) : NDT :=
  NDT.div255 (NDT.permute batch [0, 3, 1, 2])

/-- Embedding of the split decision of `_inference` (inference.py lines
96-105): if either spatial dimension exceeds `image_size * 2` the image
is split by `patchify` with overlap `1/8` and the original shape and
grids are recorded (`some` metadata); otherwise a dummy leading
dimension is added (`none` metadata). -/
def preprocess (image : NDT) (image_size : ℕ) (fuel : ℕ) :
    Option (NDT × Option (List ℕ × List ℕ × List ℕ)) :=
  if image_size * 2 < image.shape.getD 0 0 ∨
     image_size * 2 < image.shape.getD 1 0 then
    match patchify image image_size (1/8 : ℚ) fuel with
    | some (splits, X_points, Y_points) =>
        some (splits, some (image.shape, X_points, Y_points))
    | none => none
  else
    some (NDT.expandDims0 image, none)

/-- Embedding of `_inference` after input resolution (inference.py lines
96-128): preprocess, normalize, run the external transform `net` (whose
second output `ei` is the enhanced batch), then either unwrap a
single-item batch with `squeeze(0)` or reconstruct with the recorded
shape and grids followed by `.squeeze(0).permute(2, 0, 1)`. The inner
`none` in the non-split branch mirrors the source hitting undefined
`original_shape`/`X_points`/`Y_points` names there. -/
def inferenceCore (net : NDT → NDT × NDT × NDT) (image : NDT)
    (image_size : ℕ) (fuel : ℕ) : Option NDT :=
  match preprocess image image_size fuel with
  | none => none
  | some (batch, meta) =>
    let ei := (net (normalizeBatch batch)).2.1
    if ei.shape.getD 0 0 = 1 then
      some (NDT.squeeze0 ei)
    else
      match meta with
      | none => none
      | some (original_shape, X_points, Y_points) =>
          some ((NDT.squeeze0 (reconstruct (NDT.permute ei [0, 2, 3, 1])
            image_size (1/8 : ℚ) original_shape X_points Y_points)).permute
              [2, 0, 1])

/-- The three kinds of input `_inference` distinguishes (inference.py
lines 66-94): a filesystem path (abstracted by the outcomes of the two
external load attempts: `np.load`, then `PIL.Image.open`), an in-memory
array, or anything else. -/
inductive InfInput where
  | path (npLoad : Option NDT) (pilLoad : Option NDT)
  | array (a : NDT)
  | other

/-- Embedding of the input resolution of `_inference` (inference.py
lines 66-94). For a path, the source first assigns `image` from the
numpy attempt (its value on success, `None` on failure) and then
reassigns `image` from the PIL attempt unconditionally — the second
assignment overwrites the first's result either way — and raises
`ValueError("Invalid path.")` when the final `image` is `None`. -/
def resolveInput : InfInput → Except String NDT
  | .path npLoad pilLoad =>
      let image := npLoad
      let image := pilLoad
      match image with
      | none => Except.error "Invalid path."
      | some img => Except.ok img
  | .array a => Except.ok a
  | .other => Except.error "Invalid input."

/-- Full `_inference` contract for a resolved input: resolution followed
by the core pipeline (the resolved image is the one used downstream). -/
def inferenceFull (net : NDT → NDT × NDT × NDT) (inp : InfInput)
    (image_size : ℕ) (fuel : ℕ) : Except String (Option NDT) :=
  (resolveInput inp).map (fun image => inferenceCore net image image_size fuel)

/-- Concrete 2×2 single-channel image used to witness the round-trip
claim: pixel `(y, x)` holds the value `10 y + x`. -/
def wimg : NDT :=
  ⟨[2, 2, 1], fun idx => (10 * idx.getD 0 0 + idx.getD 1 0 : ℚ)⟩

/-- The patch stack `patchify` produces for `wimg` with window size 1
and overlap 0 (grids `[0, 1]` on both axes). -/
def wsplits : NDT :=
  ⟨[(gridPairs [0, 1] [0, 1]).length, 1, 1, wimg.shape.getD 2 0],
   fun idx =>
     wimg.data
       [((gridPairs [0, 1] [0, 1]).getD (idx.getD 0 0) (0, 0)).1
          + idx.getD 1 0,
        ((gridPairs [0, 1] [0, 1]).getD (idx.getD 0 0) (0, 0)).2
          + idx.getD 2 0,
        idx.getD 3 0]⟩

/-- Concrete image of shape `(600, 600, 3)` for the scenario claim. -/
def img600 : NDT := ⟨[600, 600, 3], fun _ => 0⟩

/-- The patch stack `patchify` produces for `img600` with window size
256 and overlap 1/8 (grids `[0, 224, 344]` on both axes, 9 patches). -/
def splits600 : NDT :=
  ⟨[(gridPairs [0, 224, 344] [0, 224, 344]).length, 256, 256,
    img600.shape.getD 2 0],
   fun idx =>
     img600.data
       [((gridPairs [0, 224, 344] [0, 224, 344]).getD (idx.getD 0 0) (0, 0)).1
          + idx.getD 1 0,
        ((gridPairs [0, 224, 344] [0, 224, 344]).getD (idx.getD 0 0) (0, 0)).2
          + idx.getD 2 0,
        idx.getD 3 0]⟩

/-- Concrete image of shape `(256, 256, 3)`: the threshold-boundary
scenario for the split decision. -/
def img256 : NDT := ⟨[256, 256, 3], fun _ => 0⟩

/-- Concrete image of shape `(2, 2, 3)` used for the output-shape claim
(not split at window size 1, since `2 > 2` is false). -/
def cimg : NDT := ⟨[2, 2, 3], fun _ => 0⟩

/-- Concrete external transform obeying the shape contract: maps a batch
of shape `[N, c, h, w]` to a primary output of shape `[N, 3, h, w]`
(declared output channel count 3, as the enhancement model's). -/
def cnet : NDT → NDT × NDT × NDT :=
  fun t =>
    (t, ⟨[t.shape.getD 0 0, 3, t.shape.getD 2 0, t.shape.getD 3 0], t.data⟩, t)

/-- The result `inferenceCore` produces for `cimg` under `cnet` with
window size 1 (single-item branch). -/
def c8res : NDT :=
  NDT.squeeze0 ((cnet (normalizeBatch (NDT.expandDims0 cimg))).2.1)

/-- Concrete normalized-batch input for the normalization claim: every
entry is `1/2`. -/
def nbatch : NDT := ⟨[1, 1, 1, 3], fun _ => 1/2⟩

lemma strideOf_le_split (split_size : ℕ) (overlap : ℚ) (h : 0 ≤ overlap) :
    strideOf split_size overlap ≤ split_size := by
  unfold strideOf
  have h1 : (split_size : ℚ) * (1 - overlap) ≤ ((split_size : ℤ) : ℚ) := by
    push_cast
    nlinarith [Nat.cast_nonneg (α := ℚ) split_size]
  have h2 : ⌊(split_size : ℚ) * (1 - overlap)⌋ ≤ (split_size : ℤ) := by
    calc ⌊(split_size : ℚ) * (1 - overlap)⌋ ≤ ⌊((split_size : ℤ) : ℚ)⌋ :=
          Int.floor_mono h1
      _ = (split_size : ℤ) := Int.floor_intCast _
  calc (⌊(split_size : ℚ) * (1 - overlap)⌋).toNat
      ≤ ((split_size : ℤ)).toNat := Int.toNat_le_toNat h2
    _ = split_size := Int.toNat_natCast _

lemma strideOf_antitone (split_size : ℕ) (f1 f2 : ℚ) (h : f1 ≤ f2) :
    strideOf split_size f2 ≤ strideOf split_size f1 := by
  unfold strideOf
  apply Int.toNat_le_toNat
  apply Int.floor_mono
  have hc : (0 : ℚ) ≤ (split_size : ℚ) := Nat.cast_nonneg _
  nlinarith

lemma strideOf_zero (split_size : ℕ) : strideOf split_size 0 = split_size := by
  unfold strideOf
  norm_num

/-- A terminating run of the loop always produced at least one point. -/
lemma start_points_loop_ne_nil (size split_size stride : ℕ) :
    ∀ fuel counter l,
      start_points_loop size split_size stride fuel counter = some l →
      l ≠ [] := by
  intro fuel
  induction fuel with
  | zero => intro c l h; simp [start_points_loop] at h
  | succ n ih =>
    intro c l h
    rw [start_points_loop] at h
    by_cases hb : size ≤ stride * c + split_size
    · rw [if_pos hb] at h
      cases h
      simp
    · rw [if_neg hb] at h
      rcases Option.map_eq_some'.mp h with ⟨l', _, rfl⟩
      simp

/-- Every point produced by the loop starts a window that stays inside
`[0, size)`, provided `split_size ≤ size`. -/
lemma start_points_loop_bounds (size split_size stride : ℕ)
    (hss : split_size ≤ size) :
    ∀ fuel counter l,
      start_points_loop size split_size stride fuel counter = some l →
      ∀ o ∈ l, o + split_size ≤ size := by
  intro fuel
  induction fuel with
  | zero => intro c l h; simp [start_points_loop] at h
  | succ n ih =>
    intro c l h o ho
    rw [start_points_loop] at h
    by_cases hb : size ≤ stride * c + split_size
    · rw [if_pos hb] at h
      cases h
      simp only [List.mem_singleton] at ho
      omega
    · rw [if_neg hb] at h
      rcases Option.map_eq_some'.mp h with ⟨l', hl', rfl⟩
      rcases List.mem_cons.mp ho with h1 | h2
      · omega
      · exact ih (c + 1) l' hl' o h2

/-- The last point produced by the loop is always `size - split_size`. -/
lemma start_points_loop_last (size split_size stride : ℕ) :
    ∀ fuel counter l,
      start_points_loop size split_size stride fuel counter = some l →
      l.getLast? = some (size - split_size) := by
  intro fuel
  induction fuel with
  | zero => intro c l h; simp [start_points_loop] at h
  | succ n ih =>
    intro c l h
    rw [start_points_loop] at h
    by_cases hb : size ≤ stride * c + split_size
    · rw [if_pos hb] at h
      cases h
      rfl
    · rw [if_neg hb] at h
      rcases Option.map_eq_some'.mp h with ⟨l', hl', rfl⟩
      have hne := start_points_loop_ne_nil size split_size stride n (c + 1) l' hl'
      cases l' with
      | nil => exact absurd rfl hne
      | cons b t =>
        rw [List.getLast?_cons_cons]
        exact ih (c + 1) (b :: t) hl'

/-- Coverage invariant of the loop: if the loop is entered at counter
`c + 1` with the previous point `stride * c`, then prepending that
previous point to the loop's output yields a list of windows covering
every `y` with `stride * c ≤ y < size`, provided `stride ≤ split_size`. -/
lemma start_points_loop_covers (size split_size stride : ℕ)
    (hstride : stride ≤ split_size) :
    ∀ fuel c l,
      start_points_loop size split_size stride fuel (c + 1) = some l →
      ∀ y, y < size → stride * c ≤ y →
      ∃ o ∈ stride * c :: l, o ≤ y ∧ y < o + split_size := by
  intro fuel
  induction fuel with
  | zero => intro c l h; simp [start_points_loop] at h
  | succ n ih =>
    intro c l h y hy hle
    rw [start_points_loop] at h
    have hmul : stride * (c + 1) = stride * c + stride := Nat.mul_succ _ _
    by_cases hb : size ≤ stride * (c + 1) + split_size
    · rw [if_pos hb] at h
      cases h
      rw [hmul] at hb
      by_cases hy2 : y < stride * c + split_size
      · exact ⟨stride * c, by simp, hle, hy2⟩
      · refine ⟨size - split_size, by simp, by omega, by omega⟩
    · rw [if_neg hb] at h
      rcases Option.map_eq_some'.mp h with ⟨l', hl', rfl⟩
      by_cases hy2 : y < stride * c + split_size
      · exact ⟨stride * c, by simp, hle, hy2⟩
      · have hle2 : stride * (c + 1) ≤ y := by omega
        rcases ih (c + 1) l' hl' y hy hle2 with ⟨o, ho, h1, h2⟩
        exact ⟨o, List.mem_cons_of_mem _ ho, h1, h2⟩

/-- Inverting a successful `start_points` call: the result is `0`
followed by a (nonempty) terminating run of the loop starting at
counter 1. -/
lemma start_points_eq (size split_size : ℕ) (overlap : ℚ) (fuel : ℕ)
    (pts : List ℕ) (h : start_points size split_size overlap fuel = some pts) :
    ∃ l, pts = 0 :: l ∧
      start_points_loop size split_size (strideOf split_size overlap) fuel 1
        = some l ∧ l ≠ [] := by
  unfold start_points at h
  rcases Option.map_eq_some'.mp h with ⟨l, hl, rfl⟩
  exact ⟨l, rfl, hl, start_points_loop_ne_nil _ _ _ _ _ _ hl⟩

/-- C1. For every `extent ≥ window_size > 0`, `0 ≤ overlap_fraction < 1`,
and terminating run of `start_points`, the produced grid starts at 0,
every offset `o` satisfies `0 ≤ o` and `o + window_size ≤ extent`, the
last offset is `extent - window_size`, and the union of the windows
`[o, o + window_size)` is exactly `[0, extent)`. -/
theorem start_points_coverage (size split_size : ℕ) (overlap : ℚ)
    (fuel : ℕ) (pts : List ℕ)
    (hsz : split_size ≤ size) (hpos : 0 < split_size)
    (hov0 : 0 ≤ overlap) (hov1 : overlap < 1)
    (hrun : start_points size split_size overlap fuel = some pts) :
    pts.head? = some 0 ∧
    (∀ o ∈ pts, 0 ≤ o ∧ o + split_size ≤ size) ∧
    pts.getLast? = some (size - split_size) ∧
    (∀ y, y < size ↔ ∃ o ∈ pts, o ≤ y ∧ y < o + split_size) := by
  rcases start_points_eq size split_size overlap fuel pts hrun with
    ⟨l, rfl, hloop, hne⟩
  refine ⟨rfl, ?_, ?_, ?_⟩
  · intro o ho
    rcases List.mem_cons.mp ho with h1 | h2
    · omega
    · exact ⟨Nat.zero_le _,
        start_points_loop_bounds size split_size _ hsz fuel 1 l hloop o h2⟩
  · cases l with
    | nil => exact absurd rfl hne
    | cons b t =>
      rw [List.getLast?_cons_cons]
      exact start_points_loop_last size split_size _ fuel 1 (b :: t) hloop
  · intro y
    constructor
    · intro hy
      have := start_points_loop_covers size split_size _
        (strideOf_le_split split_size overlap hov0) fuel 0 l hloop y hy
        (by simp)
      simpa using this
    · rintro ⟨o, ho, h1, h2⟩
      rcases List.mem_cons.mp ho with h3 | h4
      · omega
      · have := start_points_loop_bounds size split_size _ hsz fuel 1 l
          hloop o h4
        omega

/-- Witness for C1 at `extent = 4`, `window_size = 2`,
`overlap_fraction = 0`. -/
theorem start_points_coverage_witness :
    (2 ≤ 4 ∧ 0 < 2 ∧ (0 : ℚ) ≤ 0 ∧ (0 : ℚ) < 1 ∧
      start_points 4 2 0 10 = some [0, 2]) ∧
    ([0, 2].head? = some 0 ∧
     (∀ o ∈ [0, 2], 0 ≤ o ∧ o + 2 ≤ 4) ∧
     [0, 2].getLast? = some (4 - 2) ∧
     (∀ y, y < 4 ↔ ∃ o ∈ [0, 2], o ≤ y ∧ y < o + 2)) :=
  ⟨⟨by norm_num, by norm_num, le_refl 0, by norm_num,
     by norm_num [start_points, strideOf]; decide⟩,
   start_points_coverage 4 2 0 10 [0, 2] (by norm_num) (by norm_num)
     (le_refl 0) (by norm_num)
     (by norm_num [start_points, strideOf]; decide)⟩

/-- With `stride = 0` and `split_size < size`, the loop never reaches the
break condition: every candidate point is `0` and `0 + split_size < size`,
so no amount of fuel suffices. -/
lemma start_points_loop_stride_zero (size split_size : ℕ)
    (h : split_size < size) :
    ∀ fuel counter,
      start_points_loop size split_size 0 fuel counter = none := by
  intro fuel
  induction fuel with
  | zero => intro c; rfl
  | succ n ih =>
    intro c
    rw [start_points_loop]
    rw [if_neg (by omega)]
    rw [ih (c + 1)]
    rfl

/-- C4. The code has no guard treating `stride <= 0` as `stride = 1`:
at `extent = 3`, `window_size = 2`, `overlap_fraction = 3/4` the computed
stride is `int(2 * 0.25) = 0` and the loop never terminates — the
embedded loop returns `none` for every fuel bound. -/
theorem start_points_stride_zero_diverges :
    ∀ fuel, start_points 3 2 (3/4 : ℚ) fuel = none := by
  intro fuel
  have hs : strideOf 2 (3/4 : ℚ) = 0 := by norm_num [strideOf]
  unfold start_points
  rw [hs, start_points_loop_stride_zero 3 2 (by norm_num) fuel 1]
  rfl

/-- C5 counterexample. At `extent = window_size = 1` (with
`overlap_fraction = 0`) the code returns the grid `[0, 0]`, not `[0]`:
the very first loop iteration already satisfies the break condition and
appends the clamped final offset `1 - 1 = 0` after the initial `0`. -/
theorem start_points_equal_extent_counterexample :
    start_points 1 1 0 5 = some [0, 0] ∧
    start_points 1 1 0 5 ≠ some [0] := by
  constructor
  · norm_num [start_points, strideOf]; decide
  · norm_num [start_points, strideOf]; decide

/-- C5 amended. For every `window_size > 0` and
`0 ≤ overlap_fraction < 1`, calling `start_points` with
`extent = window_size` returns the grid `[0, 0]`: the initial offset `0`
followed by the clamped final offset `extent - window_size = 0`, a
duplicate. -/
theorem start_points_equal_extent (split_size : ℕ) (overlap : ℚ)
    (fuel : ℕ) (hpos : 0 < split_size) (hov0 : 0 ≤ overlap)
    (hov1 : overlap < 1) (hfuel : 1 ≤ fuel) :
    start_points split_size split_size overlap fuel = some [0, 0] := by
  obtain ⟨n, rfl⟩ : ∃ n, fuel = n + 1 := ⟨fuel - 1, by omega⟩
  unfold start_points
  rw [start_points_loop]
  rw [if_pos (by omega)]
  simp

/-- Witness for C5's amended theorem at `window_size = 3`,
`overlap_fraction = 1/2`, fuel 7. -/
theorem start_points_equal_extent_witness :
    (0 < 3 ∧ (0 : ℚ) ≤ 1/2 ∧ (1/2 : ℚ) < 1 ∧ 1 ≤ 7) ∧
    start_points 3 3 (1/2 : ℚ) 7 = some [0, 0] :=
  ⟨⟨by norm_num, by norm_num, by norm_num, by norm_num⟩,
   start_points_equal_extent 3 (1/2 : ℚ) 7 (by norm_num) (by norm_num)
     (by norm_num) (by norm_num)⟩

/-- A smaller stride never produces a shorter grid: the loop with the
larger stride reaches its break condition no later, counter for counter. -/
lemma start_points_loop_length_antitone (size split_size s1 s2 : ℕ)
    (h21 : s2 ≤ s1) :
    ∀ fuel1 fuel2 counter l1 l2,
      start_points_loop size split_size s1 fuel1 counter = some l1 →
      start_points_loop size split_size s2 fuel2 counter = some l2 →
      l1.length ≤ l2.length := by
  intro fuel1
  induction fuel1 with
  | zero => intro fuel2 c l1 l2 h1; simp [start_points_loop] at h1
  | succ n ih =>
    intro fuel2 c l1 l2 h1 h2
    cases fuel2 with
    | zero => simp [start_points_loop] at h2
    | succ m =>
      rw [start_points_loop] at h1 h2
      by_cases hb1 : size ≤ s1 * c + split_size
      · rw [if_pos hb1] at h1
        cases h1
        have := start_points_loop_ne_nil size split_size s2 (m + 1) c l2 h2
        have : 1 ≤ l2.length := by
          cases l2 with
          | nil => exact absurd rfl this
          | cons b t => simp
        simpa using this
      · rw [if_neg hb1] at h1
        have hb2 : ¬ size ≤ s2 * c + split_size := by
          have : s2 * c ≤ s1 * c := Nat.mul_le_mul_right c h21
          omega
        rw [if_neg hb2] at h2
        rcases Option.map_eq_some'.mp h1 with ⟨t1, ht1, rfl⟩
        rcases Option.map_eq_some'.mp h2 with ⟨t2, ht2, rfl⟩
        simpa using ih m (c + 1) t1 t2 ht1 ht2

/-- C9. With `extent ≥ window_size > 0` fixed and two overlap fractions
`f1 ≤ f2` in `[0, 1)` whose `start_points` runs both terminate, the grid
for `f2` has at least as many offsets as the grid for `f1`: increasing
the overlap fraction never decreases the number of grid points. -/
theorem start_points_count_monotone (size split_size : ℕ) (f1 f2 : ℚ)
    (fuel1 fuel2 : ℕ) (l1 l2 : List ℕ)
    (hsz : split_size ≤ size) (hpos : 0 < split_size)
    (h0 : 0 ≤ f1) (h12 : f1 ≤ f2) (h1 : f2 < 1)
    (hrun1 : start_points size split_size f1 fuel1 = some l1)
    (hrun2 : start_points size split_size f2 fuel2 = some l2) :
    l1.length ≤ l2.length := by
  rcases start_points_eq size split_size f1 fuel1 l1 hrun1 with
    ⟨t1, rfl, hloop1, _⟩
  rcases start_points_eq size split_size f2 fuel2 l2 hrun2 with
    ⟨t2, rfl, hloop2, _⟩
  have := start_points_loop_length_antitone size split_size
    (strideOf split_size f1) (strideOf split_size f2)
    (strideOf_antitone split_size f1 f2 h12) fuel1 fuel2 1 t1 t2 hloop1 hloop2
  simpa using this

/-- Witness for C9 at `extent = 4`, `window_size = 2`, `f1 = 0`
(grid `[0, 2]`), `f2 = 1/2` (grid `[0, 1, 2]`). -/
theorem start_points_count_monotone_witness :
    (2 ≤ 4 ∧ 0 < 2 ∧ (0 : ℚ) ≤ 0 ∧ (0 : ℚ) ≤ 1/2 ∧ (1/2 : ℚ) < 1 ∧
      start_points 4 2 0 10 = some [0, 2] ∧
      start_points 4 2 (1/2 : ℚ) 10 = some [0, 1, 2]) ∧
    ([0, 2] : List ℕ).length ≤ ([0, 1, 2] : List ℕ).length :=
  ⟨⟨by norm_num, by norm_num, by norm_num, by norm_num, by norm_num,
    by norm_num [start_points, strideOf]; decide,
    by norm_num [start_points, strideOf]; decide⟩,
   start_points_count_monotone 4 2 0 (1/2 : ℚ) 10 10 [0, 2] [0, 1, 2]
     (by norm_num) (by norm_num) (by norm_num) (by norm_num) (by norm_num)
     (by norm_num [start_points, strideOf]; decide)
     (by norm_num [start_points, strideOf]; decide)⟩

/-- Coverage of a terminating `start_points` grid: every coordinate
`y < size` lies in some window, for any overlap fraction `≥ 0`. -/
lemma start_points_covers (size split_size : ℕ) (overlap : ℚ) (fuel : ℕ)
    (pts : List ℕ) (hov : 0 ≤ overlap)
    (hrun : start_points size split_size overlap fuel = some pts) :
    ∀ y, y < size → ∃ o ∈ pts, o ≤ y ∧ y < o + split_size := by
  intro y hy
  rcases start_points_eq size split_size overlap fuel pts hrun with
    ⟨l, rfl, hloop, _⟩
  have := start_points_loop_covers size split_size _
    (strideOf_le_split split_size overlap hov) fuel 0 l hloop y hy (by simp)
  simpa using this

/-- Inverting a successful `patchify` call: both grids terminated, and
the stacked patch array has shape `[N, split_size, split_size, C]` with
entry `[k, a, b, c]` taken from the source image at the `k`-th grid
pair, offset by `(a, b)`. -/
lemma patchify_eq (image : NDT) (split_size : ℕ) (overlap : ℚ) (fuel : ℕ)
    (splits : NDT) (X_points Y_points : List ℕ)
    (h : patchify image split_size overlap fuel
          = some (splits, X_points, Y_points)) :
    start_points (image.shape.getD 0 0) split_size overlap fuel
        = some Y_points ∧
    start_points (image.shape.getD 1 0) split_size overlap fuel
        = some X_points ∧
    splits.shape = [(gridPairs X_points Y_points).length, split_size,
                    split_size, image.shape.getD 2 0] ∧
    ∀ k a b c, splits.data [k, a, b, c] =
      image.data [((gridPairs X_points Y_points).getD k (0, 0)).1 + a,
                  ((gridPairs X_points Y_points).getD k (0, 0)).2 + b, c] := by
  unfold patchify at h
  cases hY : start_points (image.shape.getD 0 0) split_size overlap fuel with
  | none => rw [hY] at h; exact absurd h (by simp)
  | some Y0 =>
    cases hX : start_points (image.shape.getD 1 0) split_size overlap fuel with
    | none => rw [hY, hX] at h; exact absurd h (by simp)
    | some X0 =>
      rw [hY, hX] at h
      simp only [Option.some.injEq, Prod.mk.injEq] at h
      obtain ⟨hsp, hXe, hYe⟩ := h
      subst hXe; subst hYe
      refine ⟨rfl, rfl, ?_, ?_⟩
      · rw [← hsp]
      · intro k a b c
        rw [← hsp]
        rfl

/-- Last-write-wins description of the write loop: provided patch
`count + k` holds the source image shifted by the `k`-th pair, the loop
writes the original image value at every covered index and leaves the
canvas untouched at every uncovered index. -/
lemma reconstructLoop_writes (splits : NDT) (split_size : ℕ) (image : NDT) :
    ∀ (pairs : List (ℕ × ℕ)) (count : ℕ) (canvas : List ℕ → ℚ)
      (y x ch : ℕ),
    (∀ k, k < pairs.length → ∀ a b,
        splits.data [count + k, a, b, ch] =
        image.data [(pairs.getD k (0, 0)).1 + a,
                    (pairs.getD k (0, 0)).2 + b, ch]) →
    ((∃ p ∈ pairs, p.1 ≤ y ∧ y < p.1 + split_size ∧
        p.2 ≤ x ∧ x < p.2 + split_size) →
      reconstructLoop splits split_size pairs count canvas [y, x, ch]
        = image.data [y, x, ch]) ∧
    ((¬ ∃ p ∈ pairs, p.1 ≤ y ∧ y < p.1 + split_size ∧
        p.2 ≤ x ∧ x < p.2 + split_size) →
      reconstructLoop splits split_size pairs count canvas [y, x, ch]
        = canvas [y, x, ch]) := by
  intro pairs
  induction pairs with
  | nil =>
    intro count canvas y x ch hdata
    exact ⟨by simp, fun _ => rfl⟩
  | cons hd rest ih =>
    intro count canvas y x ch hdata
    obtain ⟨i, j⟩ := hd
    have hdata' : ∀ k, k < rest.length → ∀ a b,
        splits.data [count + 1 + k, a, b, ch] =
        image.data [(rest.getD k (0, 0)).1 + a,
                    (rest.getD k (0, 0)).2 + b, ch] := by
      intro k hk a b
      have := hdata (k + 1) (by simpa using Nat.succ_lt_succ hk) a b
      simpa [Nat.add_assoc, Nat.add_comm 1 k] using this
    have hrec := ih (count + 1)
      (fun idx =>
        if i ≤ idx.getD 0 0 ∧ idx.getD 0 0 < i + split_size ∧
           j ≤ idx.getD 1 0 ∧ idx.getD 1 0 < j + split_size then
          splits.data [count, idx.getD 0 0 - i, idx.getD 1 0 - j,
                       idx.getD 2 0]
        else canvas idx)
      y x ch hdata'
    constructor
    · intro hcov
      by_cases hrest : ∃ p ∈ rest, p.1 ≤ y ∧ y < p.1 + split_size ∧
          p.2 ≤ x ∧ x < p.2 + split_size
      · exact hrec.1 hrest
      · have hhd : i ≤ y ∧ y < i + split_size ∧ j ≤ x ∧ x < j + split_size := by
          rcases hcov with ⟨p, hp, hcov⟩
          rcases List.mem_cons.mp hp with h1 | h2
          · rw [h1] at hcov; exact hcov
          · exact absurd ⟨p, h2, hcov⟩ hrest
        rw [show reconstructLoop splits split_size ((i, j) :: rest) count
              canvas = reconstructLoop splits split_size rest (count + 1)
              (fun idx =>
                if i ≤ idx.getD 0 0 ∧ idx.getD 0 0 < i + split_size ∧
                   j ≤ idx.getD 1 0 ∧ idx.getD 1 0 < j + split_size then
                  splits.data [count, idx.getD 0 0 - i, idx.getD 1 0 - j,
                               idx.getD 2 0]
                else canvas idx) from rfl]
        rw [hrec.2 hrest]
        simp only [List.getD_cons_zero, List.getD_cons_succ]
        rw [if_pos hhd]
        have heq := hdata 0 (by simp) (y - i) (x - j)
        simp only [List.getD_cons_zero, Nat.add_zero] at heq
        rw [heq]
        have h1 : i + (y - i) = y := by omega
        have h2 : j + (x - j) = x := by omega
        rw [h1, h2]
    · intro hcov
      have hrest : ¬ ∃ p ∈ rest, p.1 ≤ y ∧ y < p.1 + split_size ∧
          p.2 ≤ x ∧ x < p.2 + split_size := by
        intro ⟨p, hp, hc⟩
        exact hcov ⟨p, List.mem_cons_of_mem _ hp, hc⟩
      have hhd : ¬ (i ≤ y ∧ y < i + split_size ∧ j ≤ x ∧ x < j + split_size) := by
        intro hc
        exact hcov ⟨(i, j), List.mem_cons_self _ _, hc⟩
      rw [show reconstructLoop splits split_size ((i, j) :: rest) count
            canvas = reconstructLoop splits split_size rest (count + 1)
            (fun idx =>
              if i ≤ idx.getD 0 0 ∧ idx.getD 0 0 < i + split_size ∧
                 j ≤ idx.getD 1 0 ∧ idx.getD 1 0 < j + split_size then
                splits.data [count, idx.getD 0 0 - i, idx.getD 1 0 - j,
                             idx.getD 2 0]
              else canvas idx) from rfl]
      rw [hrec.2 hrest]
      simp only [List.getD_cons_zero, List.getD_cons_succ]
      rw [if_neg hhd]

/-- C2. For every image whose height and width are exact positive
multiples of the window size, splitting with overlap 0 via `patchify`
and writing the patches back via `reconstruct` with the same window
size, grids and original shape reproduces the original image exactly:
the canvas has the original shape and every in-range pixel (in every
channel) equals the original pixel. -/
theorem patchify_reconstruct_roundtrip (image : NDT)
    (split_size m n chan fuel : ℕ) (splits : NDT)
    (X_points Y_points : List ℕ)
    (hws : 0 < split_size) (hm : 0 < m) (hn : 0 < n)
    (hshape : image.shape = [m * split_size, n * split_size, chan])
    (hrun : patchify image split_size 0 fuel
             = some (splits, X_points, Y_points)) :
    (reconstruct splits split_size 0 image.shape X_points Y_points).shape
      = image.shape ∧
    ∀ y x ch, y < m * split_size → x < n * split_size →
      (reconstruct splits split_size 0 image.shape X_points Y_points).data
          [y, x, ch] = image.data [y, x, ch] := by
  obtain ⟨hY, hX, hshp, hdata⟩ :=
    patchify_eq image split_size 0 fuel splits X_points Y_points hrun
  refine ⟨rfl, ?_⟩
  intro y x ch hy hx
  have hY' : start_points (m * split_size) split_size 0 fuel
      = some Y_points := by
    rw [hshape] at hY
    simpa using hY
  have hX' : start_points (n * split_size) split_size 0 fuel
      = some X_points := by
    rw [hshape] at hX
    simpa using hX
  obtain ⟨i, hiY, hi1, hi2⟩ :=
    start_points_covers _ _ 0 fuel Y_points le_rfl hY' y hy
  obtain ⟨j, hjX, hj1, hj2⟩ :=
    start_points_covers _ _ 0 fuel X_points le_rfl hX' x hx
  have hmem : (i, j) ∈ gridPairs X_points Y_points := by
    simp only [gridPairs, List.mem_flatMap, List.mem_map]
    exact ⟨i, hiY, j, hjX, rfl⟩
  have hw := (reconstructLoop_writes splits split_size image
      (gridPairs X_points Y_points) 0 (fun _ => 0) y x ch
      (by intro k hk a b; simpa using hdata k a b ch)).1
    ⟨(i, j), hmem, hi1, hi2, hj1, hj2⟩
  exact hw

/-- `patchify` on the concrete 2×2 witness image with window size 1 and
overlap 0 yields grids `[0, 1]` and the patch stack `wsplits`. -/
lemma wimg_patchify :
    patchify wimg 1 0 10 = some (wsplits, [0, 1], [0, 1]) := by
  have h1 : start_points 2 1 0 10 = some [0, 1] := by
    norm_num [start_points, strideOf]
    decide
  have h0 : wimg.shape.getD 0 0 = 2 := rfl
  have h0' : wimg.shape.getD 1 0 = 2 := rfl
  unfold patchify
  rw [h0, h0', h1]
  rfl

/-- Witness for C2 at the 2×2 image `wimg`, window size 1, overlap 0. -/
theorem patchify_reconstruct_roundtrip_witness :
    (0 < 1 ∧ 0 < 2 ∧ wimg.shape = [2 * 1, 2 * 1, 1] ∧
      patchify wimg 1 0 10 = some (wsplits, [0, 1], [0, 1])) ∧
    ((reconstruct wsplits 1 0 wimg.shape [0, 1] [0, 1]).shape = wimg.shape ∧
     ∀ y x ch, y < 2 * 1 → x < 2 * 1 →
       (reconstruct wsplits 1 0 wimg.shape [0, 1] [0, 1]).data [y, x, ch]
         = wimg.data [y, x, ch]) :=
  ⟨⟨by norm_num, by norm_num, by norm_num [wimg], wimg_patchify⟩,
   patchify_reconstruct_roundtrip wimg 1 2 2 1 10 wsplits [0, 1] [0, 1]
     (by norm_num) (by norm_num) (by norm_num) (by norm_num [wimg])
     wimg_patchify⟩

/-- C6. `start_points 600 256 (1/8)` returns exactly `[0, 224, 344]`;
consequently `patchify` on the `(600, 600, 3)` image with window size
256 and overlap 1/8 yields those grids on both axes and 9 patches
(shape `[9, 256, 256, 3]`), and `reconstruct` of those patches with
target shape `(600, 600, 3)` produces an output of shape exactly
`(600, 600, 3)`. -/
theorem scenario_600_256 :
    start_points 600 256 (1/8 : ℚ) 10 = some [0, 224, 344] ∧
    patchify img600 256 (1/8 : ℚ) 10
      = some (splits600, [0, 224, 344], [0, 224, 344]) ∧
    splits600.shape = [9, 256, 256, 3] ∧
    (reconstruct splits600 256 (1/8 : ℚ) img600.shape [0, 224, 344]
        [0, 224, 344]).shape = [600, 600, 3] := by
  have h1 : start_points 600 256 (1/8 : ℚ) 10 = some [0, 224, 344] := by
    norm_num [start_points, strideOf]
    decide
  refine ⟨h1, ?_, rfl, rfl⟩
  have h0 : img600.shape.getD 0 0 = 600 := rfl
  have h0' : img600.shape.getD 1 0 = 600 := rfl
  unfold patchify
  rw [h0, h0', h1]
  rfl

/-- C7. A preprocessed image is split via `patchify` (metadata recorded)
exactly when one of its first two dimensions exceeds `2 * image_size`;
otherwise — in particular for a `(256, 256, 3)` image at window size
256, which sits exactly at the threshold — it becomes the single-item
batch `np.expand_dims(image, 0)` of shape `1 :: image.shape`. -/
theorem split_decision (image : NDT) (image_size fuel : ℕ) (batch : NDT)
    (meta : Option (List ℕ × List ℕ × List ℕ))
    (hrun : preprocess image image_size fuel = some (batch, meta)) :
    (meta.isSome ↔ (image_size * 2 < image.shape.getD 0 0 ∨
                    image_size * 2 < image.shape.getD 1 0)) ∧
    (¬ (image_size * 2 < image.shape.getD 0 0 ∨
        image_size * 2 < image.shape.getD 1 0) →
      batch = NDT.expandDims0 image ∧ batch.shape = 1 :: image.shape) ∧
    (image.shape = [256, 256, 3] → image_size = 256 →
      meta = none ∧ batch = NDT.expandDims0 image ∧
      batch.shape = [1, 256, 256, 3]) := by
  unfold preprocess at hrun
  by_cases hc : image_size * 2 < image.shape.getD 0 0 ∨
      image_size * 2 < image.shape.getD 1 0
  · rw [if_pos hc] at hrun
    cases hp : patchify image image_size (1/8 : ℚ) fuel with
    | none => rw [hp] at hrun; exact absurd hrun (by simp)
    | some triple =>
      obtain ⟨s, X, Y⟩ := triple
      rw [hp] at hrun
      simp only [Option.some.injEq, Prod.mk.injEq] at hrun
      obtain ⟨hb, hm⟩ := hrun
      refine ⟨iff_of_true (by rw [← hm]; rfl) hc, fun h => absurd hc h, ?_⟩
      intro h256 hsz
      rw [h256, hsz] at hc
      norm_num at hc
  · rw [if_neg hc] at hrun
    simp only [Option.some.injEq, Prod.mk.injEq] at hrun
    obtain ⟨hb, hm⟩ := hrun
    subst hb
    refine ⟨iff_of_false (by rw [← hm]; simp) hc, fun _ => ⟨rfl, rfl⟩, ?_⟩
    intro h256 hsz
    refine ⟨hm.symm, rfl, ?_⟩
    show 1 :: image.shape = [1, 256, 256, 3]
    rw [h256]

/-- Witness for C7 at the `(256, 256, 3)` image and window size 256. -/
theorem split_decision_witness :
    preprocess img256 256 1 = some (NDT.expandDims0 img256, none) ∧
    (((none : Option (List ℕ × List ℕ × List ℕ)).isSome ↔
        (256 * 2 < img256.shape.getD 0 0 ∨
         256 * 2 < img256.shape.getD 1 0)) ∧
     (¬ (256 * 2 < img256.shape.getD 0 0 ∨
         256 * 2 < img256.shape.getD 1 0) →
       NDT.expandDims0 img256 = NDT.expandDims0 img256 ∧
       (NDT.expandDims0 img256).shape = 1 :: img256.shape) ∧
     (img256.shape = [256, 256, 3] → 256 = 256 →
       (none : Option (List ℕ × List ℕ × List ℕ)) = none ∧
       NDT.expandDims0 img256 = NDT.expandDims0 img256 ∧
       (NDT.expandDims0 img256).shape = [1, 256, 256, 3])) :=
  ⟨rfl, split_decision img256 256 1 (NDT.expandDims0 img256) none rfl⟩

lemma squeeze0_shape_of_head_one (t : NDT) (r : List ℕ)
    (h : t.shape = 1 :: r) : (NDT.squeeze0 t).shape = r := by
  unfold NDT.squeeze0
  rw [if_pos (by rw [h]; rfl)]
  show t.shape.tail = r
  rw [h]
  rfl

lemma squeeze0_of_head_ne (t : NDT) (h : t.shape.headD 0 ≠ 1) :
    NDT.squeeze0 t = t := by
  unfold NDT.squeeze0
  rw [if_neg h]

lemma gridPairs_length (X_points Y_points : List ℕ) :
    (gridPairs X_points Y_points).length
      = Y_points.length * X_points.length := by
  unfold gridPairs
  induction Y_points with
  | nil => simp
  | cons a t ih =>
    simp only [List.flatMap_cons, List.length_append, List.length_map, ih,
      List.length_cons]
    ring

/-- A terminating `start_points` grid has at least two entries: the
initial `0` plus at least one point appended by the loop. -/
lemma start_points_length_ge_two (size split_size : ℕ) (overlap : ℚ)
    (fuel : ℕ) (pts : List ℕ)
    (h : start_points size split_size overlap fuel = some pts) :
    2 ≤ pts.length := by
  rcases start_points_eq size split_size overlap fuel pts h with
    ⟨l, rfl, _, hne⟩
  cases l with
  | nil => exact absurd rfl hne
  | cons b t => simp

/-- Unfolding `inferenceCore` when preprocessing produced a single-item
batch (no metadata). -/
lemma inferenceCore_single (net : NDT → NDT × NDT × NDT) (image : NDT)
    (image_size fuel : ℕ) (batch : NDT)
    (h : preprocess image image_size fuel = some (batch, none)) :
    inferenceCore net image image_size fuel =
      (if ((net (normalizeBatch batch)).2.1).shape.getD 0 0 = 1 then
        some (NDT.squeeze0 ((net (normalizeBatch batch)).2.1))
      else none) := by
  unfold inferenceCore
  simp only [h]

/-- Unfolding `inferenceCore` when preprocessing split the image and
recorded the original shape and grids. -/
lemma inferenceCore_split (net : NDT → NDT × NDT × NDT) (image : NDT)
    (image_size fuel : ℕ) (batch : NDT) (original_shape : List ℕ)
    (X_points Y_points : List ℕ)
    (h : preprocess image image_size fuel
          = some (batch, some (original_shape, X_points, Y_points))) :
    inferenceCore net image image_size fuel =
      (if ((net (normalizeBatch batch)).2.1).shape.getD 0 0 = 1 then
        some (NDT.squeeze0 ((net (normalizeBatch batch)).2.1))
      else
        some ((NDT.squeeze0 (reconstruct
          (NDT.permute ((net (normalizeBatch batch)).2.1) [0, 2, 3, 1])
          image_size (1/8 : ℚ) original_shape X_points Y_points)).permute
            [2, 0, 1])) := by
  unfold inferenceCore
  simp only [h]

/-- Inverting a successful `preprocess` call: either the image was small
and became a single-item batch, or it was split by `patchify` and the
original shape and both grids were recorded. -/
lemma preprocess_eq (image : NDT) (image_size fuel : ℕ) (batch : NDT)
    (meta : Option (List ℕ × List ℕ × List ℕ))
    (h : preprocess image image_size fuel = some (batch, meta)) :
    (meta = none ∧ batch = NDT.expandDims0 image) ∨
    (∃ X_points Y_points,
      meta = some (image.shape, X_points, Y_points) ∧
      patchify image image_size (1/8 : ℚ) fuel
        = some (batch, X_points, Y_points)) := by
  unfold preprocess at h
  by_cases hc : image_size * 2 < image.shape.getD 0 0 ∨
      image_size * 2 < image.shape.getD 1 0
  · rw [if_pos hc] at h
    cases hp : patchify image image_size (1/8 : ℚ) fuel with
    | none => rw [hp] at h; exact absurd h (by simp)
    | some triple =>
      obtain ⟨s, X, Y⟩ := triple
      rw [hp] at h
      simp only [Option.some.injEq, Prod.mk.injEq] at h
      obtain ⟨hb, hm⟩ := h
      exact Or.inr ⟨X, Y, hm.symm, by rw [hb]⟩
  · rw [if_neg hc] at h
    simp only [Option.some.injEq, Prod.mk.injEq] at h
    exact Or.inl ⟨h.2.symm, h.1.symm⟩

/-- C8 counterexample. At the `(2, 2, 3)` image `cimg` with window size
1 and the shape-contract transform `cnet` (output channel count 3),
`_inference` returns a result of shape `[3, 2, 2]` — channel first —
not `[2, 2, 3]` as the claim's `(H, W, C_out)` requires. -/
theorem inference_axis_order_counterexample :
    inferenceCore cnet cimg 1 5 = some c8res ∧
    c8res.shape = [3, 2, 2] ∧ c8res.shape ≠ [2, 2, 3] :=
  ⟨rfl, rfl, by decide⟩

/-- C8 amended. For every input image of shape `(H, W, 3)` with `H ≠ 1`
(so the final `squeeze(0)` cannot drop a height-1 axis) and a transform
whose primary output maps batch shape `[N, c, h, w]` to `[N, 3, h, w]`,
every successful `_inference` run returns a result of shape
`[3, H, W]`: height and width are preserved, but the axes come out
channel-first, not in `(row, column, channel)` order. -/
theorem inference_output_shape (net : NDT → NDT × NDT × NDT) (image : NDT)
    (H W image_size fuel : ℕ) (r : NDT)
    (himg : image.shape = [H, W, 3])
    (hnet : ∀ t, ((net t).2.1).shape
      = [t.shape.getD 0 0, 3, t.shape.getD 2 0, t.shape.getD 3 0])
    (hH : 1 < H)
    (hrun : inferenceCore net image image_size fuel = some r) :
    r.shape = [3, H, W] := by
  cases hpre : preprocess image image_size fuel with
  | none =>
    rw [inferenceCore, hpre] at hrun
    exact absurd hrun (by simp)
  | some pair =>
    obtain ⟨batch, meta⟩ := pair
    rcases preprocess_eq image image_size fuel batch meta hpre with
      ⟨hmeta, hbatch⟩ | ⟨X_points, Y_points, hmeta, hp⟩
    · subst hbatch
      rw [hmeta] at hpre
      rw [inferenceCore_single net image image_size fuel
        (NDT.expandDims0 image) hpre] at hrun
      have hnb : (normalizeBatch (NDT.expandDims0 image)).shape
          = [1, 3, H, W] := by
        show [0, 3, 1, 2].map
          (fun a => (1 :: image.shape).getD a 0) = [1, 3, H, W]
        rw [himg]
        rfl
      have hei : ((net (normalizeBatch (NDT.expandDims0 image))).2.1).shape
          = [1, 3, H, W] := by
        rw [hnet, hnb]
        rfl
      have hcond : ((net (normalizeBatch
          (NDT.expandDims0 image))).2.1).shape.getD 0 0 = 1 := by
        rw [hei]
        rfl
      rw [if_pos hcond] at hrun
      obtain rfl : NDT.squeeze0
          ((net (normalizeBatch (NDT.expandDims0 image))).2.1) = r :=
        Option.some.inj hrun
      rw [squeeze0_shape_of_head_one _ [3, H, W] hei]
    · rw [hmeta] at hpre
      rw [inferenceCore_split net image image_size fuel batch image.shape
        X_points Y_points hpre] at hrun
      obtain ⟨hY, hX, hshp, _⟩ := patchify_eq image image_size (1/8 : ℚ)
        fuel batch X_points Y_points hp
      have hC : image.shape.getD 2 0 = 3 := by rw [himg]; rfl
      have hN : 4 ≤ (gridPairs X_points Y_points).length := by
        rw [gridPairs_length]
        have h1 := start_points_length_ge_two _ _ _ _ _ hY
        have h2 := start_points_length_ge_two _ _ _ _ _ hX
        exact Nat.mul_le_mul h1 h2
      have hnb : (normalizeBatch batch).shape
          = [(gridPairs X_points Y_points).length, 3, image_size,
             image_size] := by
        show [0, 3, 1, 2].map (fun a => batch.shape.getD a 0) = _
        rw [hshp, hC]
        rfl
      have hei : ((net (normalizeBatch batch)).2.1).shape
          = [(gridPairs X_points Y_points).length, 3, image_size,
             image_size] := by
        rw [hnet, hnb]
        rfl
      have hcond : ¬ ((net (normalizeBatch batch)).2.1).shape.getD 0 0
          = 1 := by
        rw [hei]
        simp only [List.getD_cons_zero]
        omega
      rw [if_neg hcond] at hrun
      obtain rfl : (NDT.squeeze0 (reconstruct
          (NDT.permute ((net (normalizeBatch batch)).2.1) [0, 2, 3, 1])
          image_size (1/8 : ℚ) image.shape X_points Y_points)).permute
            [2, 0, 1] = r :=
        Option.some.inj hrun
      have hrshape : (reconstruct
          (NDT.permute ((net (normalizeBatch batch)).2.1) [0, 2, 3, 1])
          image_size (1/8 : ℚ) image.shape X_points Y_points).shape
          = image.shape := rfl
      have hsq : NDT.squeeze0 (reconstruct
          (NDT.permute ((net (normalizeBatch batch)).2.1) [0, 2, 3, 1])
          image_size (1/8 : ℚ) image.shape X_points Y_points)
          = reconstruct
          (NDT.permute ((net (normalizeBatch batch)).2.1) [0, 2, 3, 1])
          image_size (1/8 : ℚ) image.shape X_points Y_points := by
        apply squeeze0_of_head_ne
        rw [hrshape, himg]
        show H ≠ 1
        omega
      rw [hsq]
      show [2, 0, 1].map (fun a => image.shape.getD a 0) = [3, H, W]
      rw [himg]
      rfl

/-- Witness for C8's amended theorem at `cimg`, `cnet`, window size 1. -/
theorem inference_output_shape_witness :
    (cimg.shape = [2, 2, 3] ∧
     (∀ t, ((cnet t).2.1).shape
        = [t.shape.getD 0 0, 3, t.shape.getD 2 0, t.shape.getD 3 0]) ∧
     1 < 2 ∧ inferenceCore cnet cimg 1 5 = some c8res) ∧
    c8res.shape = [3, 2, 2] :=
  ⟨⟨rfl, fun t => rfl, by norm_num, rfl⟩,
   inference_output_shape cnet cimg 2 2 1 5 c8res rfl (fun t => rfl)
     (by norm_num) rfl⟩

/-- C10. The batch handed to the transform is the permuted input divided
by 255 unconditionally: entry `[n, c, y, x]` of the normalized batch is
entry `[n, y, x, c]` of the raw batch divided by 255, whatever the
value. Consequently a value in the integer range `[0, 255]` lands in
`[0, 1]`, while a value already in `[0, 1]` is rescaled again into
`[0, 1/255]`. -/
theorem normalize_div255 (batch : NDT) (n c y x : ℕ) (v : ℚ)
    (hv : batch.data [n, y, x, c] = v) :
    (normalizeBatch batch).data [n, c, y, x] = v / 255 ∧
    (0 ≤ v → v ≤ 255 → 0 ≤ v / 255 ∧ v / 255 ≤ 1) ∧
    (0 ≤ v → v ≤ 1 → 0 ≤ v / 255 ∧ v / 255 ≤ 1 / 255) := by
  refine ⟨?_, ?_, ?_⟩
  · rw [← hv]
    rfl
  · intro h0 h255
    constructor
    · positivity
    · rw [div_le_one (by norm_num : (0 : ℚ) < 255)]
      linarith
  · intro h0 h1
    refine ⟨by positivity, ?_⟩
    gcongr

/-- Witness for C10 at the constant-1/2 batch `nbatch`. -/
theorem normalize_div255_witness :
    nbatch.data [0, 0, 0, 0] = 1/2 ∧
    ((normalizeBatch nbatch).data [0, 0, 0, 0] = (1/2 : ℚ) / 255 ∧
     (0 ≤ (1/2 : ℚ) → (1/2 : ℚ) ≤ 255 →
       0 ≤ (1/2 : ℚ) / 255 ∧ (1/2 : ℚ) / 255 ≤ 1) ∧
     (0 ≤ (1/2 : ℚ) → (1/2 : ℚ) ≤ 1 →
       0 ≤ (1/2 : ℚ) / 255 ∧ (1/2 : ℚ) / 255 ≤ 1 / 255)) :=
  ⟨rfl, normalize_div255 nbatch 0 0 0 0 (1/2) rfl⟩

/-- C3. The loader does not implement "first success wins": the PIL
attempt unconditionally overwrites the numpy attempt's result. When the
numpy load succeeds and the PIL load fails (e.g. a valid `.npy` array
file, which PIL cannot open), the code discards the loaded array and
raises `ValueError("Invalid path.")`; and when both succeed, the PIL
result — the second attempt — is the one used downstream. -/
theorem resolveInput_discards_numpy (a b : NDT) :
    resolveInput (InfInput.path (some a) none)
      = Except.error "Invalid path." ∧
    resolveInput (InfInput.path (some a) (some b)) = Except.ok b ∧
    inferenceFull cnet (InfInput.path (some a) none) 1 5
      = Except.error "Invalid path." :=
  ⟨rfl, rfl, rfl⟩
